import Mathlib

/-!
# Verification of the hyperbolic transport network engine

This file embeds the network-generation and routing engine of the
hyperbolic transportation application (entry points `app.py` and
`app-2.py`) in Lean 4 and proves the specified properties about it.

The repository ships only the two Streamlit entry points; the engine
module `revised_code` they import (the hyperbolic metric, the point
sampler, the road network builder, the transit overlay, the traffic
simulator and the router) is not part of the repository sources.  Those
components are therefore modelled from the specification, as indicated
in the doc comment of each such definition.  The entry-point
orchestration (pipeline composition, session-state handling, node
selection from the largest connected component) is embedded from
`app.py` / `app-2.py` directly.

Weight-generic definitions: the Python engine computes with IEEE
floating point numbers; the embedding works over an arbitrary linear
ordered field `α` (instantiated at `ℝ` for the metric-level pipeline and
at `ℚ` in concrete witnesses).
-/

/-- Transport modes.  The spec models mode as a closed enumeration
drawn from `{walk, car, public}`. -/
inductive Mode where
  | walk
  | car
  | public
deriving DecidableEq, Repr

/-- An undirected edge of the network: endpoints are node indices,
`base_distance` is the hyperbolic length, `modes` is the
`mode_capability` set, `is_public_route` marks transit-overlay edges and
`congestion_multiplier` is the traffic-simulation weight factor
(default `1`). -/
structure Edge (α : Type) where
  u : Nat
  v : Nat
  base_distance : α
  modes : List Mode
  is_public_route : Bool
  congestion_multiplier : α
deriving DecidableEq

/-- The network graph: node `i` owns point `points[i]`; `stops` is the
set of nodes marked `is_stop = true`; adjacency is derived from
`edges`, not stored. -/
structure Graph (α : Type) where
  points : List (α × α)
  stops : List Nat
  edges : List (Edge α)
deriving DecidableEq

/-- Number of nodes of a graph: one node per sampled point. -/
def numNodes {α : Type} (g : Graph α) : Nat := g.points.length

/-- The node set of a graph: stable integer indices `0, …, n-1`. -/
def nodes {α : Type} (g : Graph α) : List Nat := List.range (numNodes g)

/-- Modelled from the spec: the fixed speed table `SPEEDS` of the
missing engine module, mapping each mode to a positive speed constant,
with distinct values and `public` the fastest. -/
def SPEEDS {α : Type} [LinearOrderedField α] : Mode → α
  | Mode.walk => 5
  | Mode.car => 30
  | Mode.public => 40

/-- Modelled from the spec: `adjusted_weight` of the missing engine
module, the Weight Calculator.  Travel cost of an edge under a mode:
`base_distance / speed[mode]`, multiplied by the congestion multiplier
exactly when the mode is `car`. -/
def adjusted_weight {α : Type} [LinearOrderedField α] (e : Edge α) (m : Mode) : α :=
  e.base_distance / SPEEDS m * (if m = Mode.car then e.congestion_multiplier else 1)

/-- Modelled from the spec: `assign_modes` of the missing engine
module, the Mode Assigner.  Every edge supports `walk`; `car` is
granted when the base distance does not exceed the car-feasibility
bound (a tunable constant, modelled as `2`); `public` is never granted
here. -/
def assign_modes {α : Type} [LinearOrderedField α] (d : α) : List Mode :=
  if d ≤ 2 then [Mode.walk, Mode.car] else [Mode.walk]

/-- Routing errors of the engine (§7 of the spec). -/
inductive RouteError where
  | NodeNotFoundError
  | NoPathError
deriving DecidableEq, Repr

/-- Mode-restricted adjacency with edge costs: the neighbours of `u`
reachable over edges whose capability set contains `m`, paired with the
edge cost for `m`.  Both orientations of an undirected edge are
usable. -/
def adjOf {α : Type} [LinearOrderedField α] (g : Graph α) (m : Mode) (u : Nat) :
    List (Nat × α) :=
  g.edges.filterMap fun e =>
    if m ∈ e.modes then
      if e.u = u then some (e.v, adjusted_weight e m)
      else if e.v = u then some (e.u, adjusted_weight e m)
      else none
    else none

/-- A priority-queue entry of the shortest-path search: a node, its
tentative distance from the source, and the path to it in reverse. -/
structure QEntry (α : Type) where
  node : Nat
  dist : α
  revPath : List Nat
deriving DecidableEq

/-- Extract a minimum-distance entry from a list, deterministically
(on ties the earlier entry wins), returning it and the remaining
entries. -/
def selectMin {α : Type} [LinearOrder α] : List (QEntry α) → Option (QEntry α × List (QEntry α))
  | [] => none
  | e :: rest =>
    match selectMin rest with
    | none => some (e, rest)
    | some (m, _) =>
      if e.dist ≤ m.dist then some (e, rest)
      else some (m, e :: (rest.erase m))

/-- Modelled from the spec: the Dijkstra loop of the missing engine
module's router.  `fuel` bounds the number of iterations (the caller
passes enough fuel to settle every node); `visited` holds settled
nodes; `frontier` is the priority queue.  Returns the path to `t` if
the search reaches it. -/
def dijkstraLoop {α : Type} [LinearOrderedField α] (adj : Nat → List (Nat × α)) (t : Nat) :
    Nat → List Nat → List (QEntry α) → Option (List Nat)
  | 0, _, _ => none
  | fuel + 1, visited, frontier =>
    match selectMin (frontier.filter fun e => decide (e.node ∉ visited)) with
    | none => none
    | some (e, rest) =>
      if e.node = t then some e.revPath.reverse
      else
        dijkstraLoop adj t fuel (e.node :: visited)
          (rest ++ (adj e.node).map fun p => ⟨p.1, e.dist + p.2, p.1 :: e.revPath⟩)

/-- Modelled from the spec: `shortest_route` of the missing engine
module, the Multi-modal Router.  Fails with `NodeNotFoundError` when
`source` or `target` is not a graph node; otherwise runs the
shortest-path search restricted to the edges usable by `m` and fails
with `NoPathError` when the search does not reach the target. -/
def shortest_route {α : Type} [LinearOrderedField α] (g : Graph α) (s t : Nat) (m : Mode) :
    Except RouteError (List Nat) :=
  if s ∈ nodes g ∧ t ∈ nodes g then
    match dijkstraLoop (adjOf g m) t (numNodes g + 1) [] [⟨s, 0, [s]⟩] with
    | some p => Except.ok p
    | none => Except.error RouteError.NoPathError
  else Except.error RouteError.NodeNotFoundError

/-- One step of the mode-restricted subgraph: `u` and `v` are joined by
an edge whose capability set contains `m`. -/
def modeAdj {α : Type} (g : Graph α) (m : Mode) (u v : Nat) : Prop :=
  ∃ e ∈ g.edges, m ∈ e.modes ∧ ((e.u = u ∧ e.v = v) ∨ (e.u = v ∧ e.v = u))

/-- Reachability in the subgraph of edges usable by mode `m`. -/
def ReachableVia {α : Type} (g : Graph α) (m : Mode) (s t : Nat) : Prop :=
  Relation.ReflTransGen (modeAdj g m) s t

lemma selectMin_mem {α : Type} [LinearOrder α] {l rest : List (QEntry α)} {e : QEntry α}
    (h : selectMin l = some (e, rest)) : e ∈ l := by
  induction l generalizing e rest with
  | nil => simp [selectMin] at h
  | cons a l ih =>
    rw [selectMin] at h
    split at h
    · simp at h; simp [h.1]
    · rename_i pm psnd heq
      split at h
      · simp at h; simp [h.1]
      · simp at h
        exact List.mem_cons_of_mem a (h.1 ▸ ih heq)

lemma selectMin_rest_subset {α : Type} [LinearOrder α] {l rest : List (QEntry α)} {e : QEntry α}
    (h : selectMin l = some (e, rest)) : rest ⊆ l := by
  induction l generalizing e rest with
  | nil => simp [selectMin] at h
  | cons a l ih =>
    rw [selectMin] at h
    split at h
    · simp at h
      rw [← h.2]; exact List.subset_cons_self a l
    · rename_i pm psnd heq
      split at h
      · simp at h
        rw [← h.2]; exact List.subset_cons_self a l
      · simp at h
        rw [← h.2]
        intro x hx
        rcases List.mem_cons.mp hx with hx | hx
        · simp [hx]
        · exact List.mem_cons_of_mem a (List.erase_subset _ _ hx)

lemma dijkstraLoop_sound {α : Type} [LinearOrderedField α] (adj : Nat → List (Nat × α))
    (R : Nat → Nat → Prop) (hadj : ∀ u v w, (v, w) ∈ adj u → R u v) (s t : Nat) :
    ∀ (fuel : Nat) (visited : List Nat) (frontier : List (QEntry α)),
      (∀ e ∈ frontier, Relation.ReflTransGen R s e.node) →
      ∀ p, dijkstraLoop adj t fuel visited frontier = some p →
      Relation.ReflTransGen R s t := by
  intro fuel
  induction fuel with
  | zero => intro visited frontier _ p h; simp [dijkstraLoop] at h
  | succ n ih =>
    intro visited frontier hfr p h
    rw [dijkstraLoop] at h
    split at h
    · simp at h
    · rename_i e rest hsel
      have hefr : e ∈ frontier := List.mem_of_mem_filter (selectMin_mem hsel)
      have hereach : Relation.ReflTransGen R s e.node := hfr e hefr
      by_cases het : e.node = t
      · exact het ▸ hereach
      · rw [if_neg het] at h
        refine ih (e.node :: visited) _ ?_ p h
        intro x hx
        rcases List.mem_append.mp hx with hx | hx
        · exact hfr x (List.mem_of_mem_filter (selectMin_rest_subset hsel hx))
        · rcases List.mem_map.mp hx with ⟨q, hq, hqx⟩
          have : R e.node q.1 := hadj e.node q.1 q.2 (by simpa using hq)
          subst hqx
          exact Relation.ReflTransGen.tail hereach this

lemma adjOf_modeAdj {α : Type} [LinearOrderedField α] {g : Graph α} {m : Mode} {u v : Nat}
    {w : α} (h : (v, w) ∈ adjOf g m u) : modeAdj g m u v := by
  rcases List.mem_filterMap.mp h with ⟨e, he, hfe⟩
  refine ⟨e, he, ?_⟩
  by_cases hm : m ∈ e.modes
  · rw [if_pos hm] at hfe
    refine ⟨hm, ?_⟩
    by_cases hu : e.u = u
    · rw [if_pos hu] at hfe
      simp at hfe
      exact Or.inl ⟨hu, hfe.1⟩
    · rw [if_neg hu] at hfe
      by_cases hv : e.v = u
      · rw [if_pos hv] at hfe
        simp at hfe
        exact Or.inr ⟨hfe.1, hv⟩
      · rw [if_neg hv] at hfe; simp at hfe
  · rw [if_neg hm] at hfe; simp at hfe

lemma shortest_route_ok_reachable {α : Type} [LinearOrderedField α] {g : Graph α}
    {s t : Nat} {m : Mode} {p : List Nat} (h : shortest_route g s t m = Except.ok p) :
    ReachableVia g m s t := by
  rw [shortest_route] at h
  by_cases hn : s ∈ nodes g ∧ t ∈ nodes g
  · rw [if_pos hn] at h
    cases hd : dijkstraLoop (adjOf g m) t (numNodes g + 1) [] [⟨s, 0, [s]⟩] with
    | none => rw [hd] at h; simp at h
    | some q =>
      exact dijkstraLoop_sound (adjOf g m) (modeAdj g m)
        (fun u v w hw => adjOf_modeAdj hw) s t (numNodes g + 1) [] [⟨s, 0, [s]⟩]
        (by intro e he; simp at he; subst he; exact Relation.ReflTransGen.refl) q hd
  · rw [if_neg hn] at h; simp at h

/-- Claim C4: for every graph, mode, and pair of graph nodes
`s ≠ t` with no path between them in the subgraph of edges whose mode
capability includes that mode, the route query fails with
`NoPathError` (an `Except.error`, distinct from an empty-but-valid
`Except.ok` route); in particular a `public` query with no reachable
public edge yields `NoPathError`. -/
theorem route_noPath_error {α : Type} [LinearOrderedField α] (g : Graph α) (s t : Nat)
    (m : Mode) (hs : s ∈ nodes g) (ht : t ∈ nodes g) (hst : s ≠ t)
    (hnp : ¬ ReachableVia g m s t) :
    shortest_route g s t m = Except.error RouteError.NoPathError := by
  rw [shortest_route, if_pos ⟨hs, ht⟩]
  cases hd : dijkstraLoop (adjOf g m) t (numNodes g + 1) [] [⟨s, 0, [s]⟩] with
  | none => rfl
  | some q =>
    exact absurd
      (shortest_route_ok_reachable (g := g) (s := s) (t := t) (m := m) (p := q)
        (by rw [shortest_route, if_pos ⟨hs, ht⟩, hd]))
      hnp

/-- A two-node graph whose single edge is walk-only: the `public`
subgraph has no edges at all. -/
def walkOnlyG : Graph ℚ :=
  { points := [(0, 0), (1, 0)], stops := [],
    edges := [⟨0, 1, 1, [Mode.walk], false, 1⟩] }

theorem route_noPath_error_witness :
    (0 ∈ nodes walkOnlyG ∧ 1 ∈ nodes walkOnlyG ∧ (0 : Nat) ≠ 1 ∧
      ¬ ReachableVia walkOnlyG Mode.public 0 1) ∧
    shortest_route walkOnlyG 0 1 Mode.public = Except.error RouteError.NoPathError := by
  have hnr : ¬ ReachableVia walkOnlyG Mode.public 0 1 := by
    intro h
    rcases h.cases_head with h0 | ⟨c, hc, _⟩
    · exact absurd h0 (by decide)
    · rcases hc with ⟨e, he, hm, _⟩
      simp [walkOnlyG] at he
      rw [he] at hm
      simp at hm
  exact ⟨⟨by decide, by decide, by decide, hnr⟩,
    route_noPath_error walkOnlyG 0 1 Mode.public (by decide) (by decide) (by decide) hnr⟩

/-- Claim C5: for every graph and every route query in which source or
target is not a node of the graph, the route operation fails with
`NodeNotFoundError`. -/
theorem route_nodeNotFound_error {α : Type} [LinearOrderedField α] (g : Graph α)
    (s t : Nat) (m : Mode) (h : s ∉ nodes g ∨ t ∉ nodes g) :
    shortest_route g s t m = Except.error RouteError.NodeNotFoundError := by
  rw [shortest_route, if_neg (by tauto)]

/-- A two-node graph used to query an out-of-range node index: node `5`
is `≥ num_intersections = 2`, hence not a graph node. -/
def twoNodeG : Graph ℚ :=
  { points := [(0, 0), (1, 0)], stops := [],
    edges := [⟨0, 1, 1, [Mode.walk, Mode.car], false, 1⟩] }

theorem route_nodeNotFound_error_witness :
    (5 ∉ nodes twoNodeG ∨ 0 ∉ nodes twoNodeG) ∧
    shortest_route twoNodeG 5 0 Mode.walk = Except.error RouteError.NodeNotFoundError :=
  ⟨Or.inl (by decide),
    route_nodeNotFound_error twoNodeG 5 0 Mode.walk (Or.inl (by decide))⟩

/-- The route query as a state transformer on the graph, embedding the
call sites in `main` (`app.py` lines 147–149): the query reads the
graph and hands it back; the returned graph is threaded through every
branch of the search loop so that absence of mutation is provable, not
assumed. -/
def dijkstraLoopG {α : Type} [LinearOrderedField α] (g : Graph α) (m : Mode) (t : Nat) :
    Nat → List Nat → List (QEntry α) → Option (List Nat) × Graph α
  | 0, _, _ => (none, g)
  | fuel + 1, visited, frontier =>
    match selectMin (frontier.filter fun e => decide (e.node ∉ visited)) with
    | none => (none, g)
    | some (e, rest) =>
      if e.node = t then (some e.revPath.reverse, g)
      else
        dijkstraLoopG g m t fuel (e.node :: visited)
          (rest ++ (adjOf g m e.node).map fun p => ⟨p.1, e.dist + p.2, p.1 :: e.revPath⟩)

/-- A single route query of the application: result plus the graph
state after the call. -/
def route_query {α : Type} [LinearOrderedField α] (g : Graph α) (s t : Nat) (m : Mode) :
    Except RouteError (List Nat) × Graph α :=
  if s ∈ nodes g ∧ t ∈ nodes g then
    match dijkstraLoopG g m t (numNodes g + 1) [] [⟨s, 0, [s]⟩] with
    | (some p, g2) => (Except.ok p, g2)
    | (none, g2) => (Except.error RouteError.NoPathError, g2)
  else (Except.error RouteError.NodeNotFoundError, g)

lemma dijkstraLoopG_snd {α : Type} [LinearOrderedField α] (g : Graph α) (m : Mode) (t : Nat) :
    ∀ (fuel : Nat) (visited : List Nat) (frontier : List (QEntry α)),
      (dijkstraLoopG g m t fuel visited frontier).2 = g := by
  intro fuel
  induction fuel with
  | zero => intro visited frontier; rfl
  | succ n ih =>
    intro visited frontier
    rw [dijkstraLoopG]
    split
    · rfl
    · rename_i e rest hsel
      by_cases het : e.node = t
      · rw [if_pos het]
      · rw [if_neg het]; exact ih _ _

lemma dijkstraLoopG_fst {α : Type} [LinearOrderedField α] (g : Graph α) (m : Mode) (t : Nat) :
    ∀ (fuel : Nat) (visited : List Nat) (frontier : List (QEntry α)),
      (dijkstraLoopG g m t fuel visited frontier).1 =
        dijkstraLoop (adjOf g m) t fuel visited frontier := by
  intro fuel
  induction fuel with
  | zero => intro visited frontier; rfl
  | succ n ih =>
    intro visited frontier
    rw [dijkstraLoopG, dijkstraLoop]
    split
    · rfl
    · rename_i e rest hsel
      by_cases het : e.node = t
      · rw [if_pos het, if_pos het]
      · rw [if_neg het, if_neg het]; exact ih _ _

/-- Claim C9: every route query — succeeding or failing — leaves the
graph unchanged (all nodes, edges, capabilities, flags, and weights
identical), its result is exactly the router's result on that graph,
and a repeated query with any other node pair and mode over the graph
returned by a previous query observes the same graph state and
answers. -/
theorem route_query_frame {α : Type} [LinearOrderedField α] (g : Graph α) (s t : Nat)
    (m : Mode) (s' t' : Nat) (m' : Mode) :
    (route_query g s t m).2 = g ∧
    (route_query g s t m).1 = shortest_route g s t m ∧
    route_query (route_query g s t m).2 s' t' m' = route_query g s' t' m' := by
  have hsnd : (route_query g s t m).2 = g := by
    rw [route_query]
    split
    · have h2 := dijkstraLoopG_snd g m t (numNodes g + 1) [] [⟨s, 0, [s]⟩]
      cases hd : dijkstraLoopG g m t (numNodes g + 1) [] [⟨s, 0, [s]⟩] with
      | mk fst snd =>
        rw [hd] at h2
        cases fst <;> simp [hd] <;> exact h2
    · rfl
  refine ⟨hsnd, ?_, by rw [hsnd]⟩
  rw [route_query, shortest_route]
  split
  · have h1 := dijkstraLoopG_fst g m t (numNodes g + 1) [] [⟨s, 0, [s]⟩]
    cases hd : dijkstraLoopG g m t (numNodes g + 1) [] [⟨s, 0, [s]⟩] with
    | mk fst snd =>
      rw [hd] at h1
      cases fst <;> simp [hd] <;> rw [← h1]
  · rfl

/-- Mode-oblivious neighbours of `u`: endpoints of any edge incident to
`u`, regardless of mode capability (this is the adjacency
`nx.connected_components` walks in `main`). -/
def neighborsAll {α : Type} (g : Graph α) (u : Nat) : List Nat :=
  g.edges.filterMap fun e =>
    if e.u = u then some e.v else if e.v = u then some e.u else none

/-- Two nodes joined by some edge, any mode. -/
def adjAll {α : Type} (g : Graph α) (u v : Nat) : Prop := v ∈ neighborsAll g u

/-- Connectivity over all edges regardless of mode. -/
def ConnectedIn {α : Type} (g : Graph α) (x y : Nat) : Prop :=
  Relation.ReflTransGen (adjAll g) x y

lemma mem_neighborsAll {α : Type} {g : Graph α} {x y : Nat} :
    y ∈ neighborsAll g x ↔ ∃ e ∈ g.edges, (e.u = x ∧ e.v = y) ∨ (e.v = x ∧ e.u = y) := by
  constructor
  · intro h
    rcases List.mem_filterMap.mp h with ⟨e, he, hfe⟩
    refine ⟨e, he, ?_⟩
    by_cases hu : e.u = x
    · rw [if_pos hu] at hfe; simp at hfe; exact Or.inl ⟨hu, hfe⟩
    · rw [if_neg hu] at hfe
      by_cases hv : e.v = x
      · rw [if_pos hv] at hfe; simp at hfe; exact Or.inr ⟨hv, hfe⟩
      · rw [if_neg hv] at hfe; simp at hfe
  · rintro ⟨e, he, hor⟩
    refine List.mem_filterMap.mpr ⟨e, he, ?_⟩
    rcases hor with ⟨hu, hv⟩ | ⟨hv, hu⟩
    · rw [if_pos hu, hv]
    · by_cases hux : e.u = x
      · rw [if_pos hux]
        rw [hux] at hu; rw [← hu, hv]
      · rw [if_neg hux, if_pos hv, hu]

lemma adjAll_symm {α : Type} (g : Graph α) : Symmetric (adjAll g) := by
  intro x y h
  rcases mem_neighborsAll.mp h with ⟨e, he, hor⟩
  exact mem_neighborsAll.mpr ⟨e, he, by tauto⟩

/-- A set of nodes closed under taking neighbours. -/
def closedUnder {α : Type} (g : Graph α) (S : List Nat) : Prop :=
  ∀ x ∈ S, ∀ y ∈ neighborsAll g x, y ∈ S

lemma closedUnder_reach {α : Type} {g : Graph α} {S : List Nat} (hS : closedUnder g S)
    {r y : Nat} (hr : r ∈ S) (h : ConnectedIn g r y) : y ∈ S := by
  induction h with
  | refl => exact hr
  | tail _ hadj ih => exact hS _ ih _ hadj

/-- The breadth-first search collecting one connected component,
embedding `nx.connected_components`' per-component traversal:
`frontier` holds discovered unprocessed nodes, `rem` the undiscovered
ones, `acc` the component so far.  Returns the component and the
remaining undiscovered nodes. -/
def compLoop {α : Type} (g : Graph α) (frontier rem acc : List Nat) : List Nat × List Nat :=
  match frontier with
  | [] => (acc, rem)
  | u :: fr =>
    compLoop g (fr ++ rem.filter (fun v => decide (v ∈ neighborsAll g u)))
      (rem.filter (fun v => !decide (v ∈ neighborsAll g u))) (acc ++ [u])
termination_by frontier.length + rem.length
decreasing_by
  simp only [List.length_append, List.length_cons]
  have h := (List.filter_append_perm (fun v => decide (v ∈ neighborsAll g u)) rem).length_eq
  simp only [List.length_append] at h
  omega

lemma compLoop_nil {α : Type} (g : Graph α) (rem acc : List Nat) :
    compLoop g [] rem acc = (acc, rem) := by
  rw [compLoop.eq_def]

lemma compLoop_cons {α : Type} (g : Graph α) (u : Nat) (fr rem acc : List Nat) :
    compLoop g (u :: fr) rem acc =
      compLoop g (fr ++ rem.filter (fun v => decide (v ∈ neighborsAll g u)))
        (rem.filter (fun v => !decide (v ∈ neighborsAll g u))) (acc ++ [u]) := by
  rw [compLoop.eq_def]

lemma compLoop_rem_sublist {α : Type} (g : Graph α) :
    ∀ frontier rem acc, ((compLoop g frontier rem acc).2).Sublist rem := by
  intro frontier rem acc
  induction frontier, rem, acc using compLoop.induct g with
  | case1 rem acc => rw [compLoop_nil]
  | case2 rem acc u fr ih =>
    rw [compLoop_cons]
    exact ih.trans (List.filter_sublist rem)

lemma compLoop_rem_sublen {α : Type} (g : Graph α) (frontier rem acc : List Nat) :
    ((compLoop g frontier rem acc).2).length ≤ rem.length :=
  (compLoop_rem_sublist g frontier rem acc).length_le

lemma compLoop_conserv {α : Type} (g : Graph α) :
    ∀ frontier rem acc (x : Nat),
      (x ∈ (compLoop g frontier rem acc).1 ∨ x ∈ (compLoop g frontier rem acc).2) ↔
      (x ∈ acc ∨ x ∈ frontier ∨ x ∈ rem) := by
  intro frontier rem acc
  induction frontier, rem, acc using compLoop.induct g with
  | case1 rem acc => intro x; rw [compLoop_nil]; simp
  | case2 rem acc u fr ih =>
    intro x
    rw [compLoop_cons, ih]
    simp only [List.mem_append, List.mem_filter, List.mem_cons, List.mem_singleton,
      decide_eq_true_eq, Bool.not_eq_true']
    by_cases hx : x ∈ neighborsAll g u <;> by_cases hr : x ∈ rem <;>
      simp [hx, hr] <;> tauto

lemma compLoop_sound {α : Type} (g : Graph α) (r : Nat) :
    ∀ frontier rem acc,
      (∀ v ∈ frontier, ConnectedIn g r v) → (∀ v ∈ acc, ConnectedIn g r v) →
      ∀ v ∈ (compLoop g frontier rem acc).1, ConnectedIn g r v := by
  intro frontier rem acc
  induction frontier, rem, acc using compLoop.induct g with
  | case1 rem acc =>
    intro _ hacc v hv
    rw [compLoop_nil] at hv
    exact hacc v hv
  | case2 rem acc u fr ih =>
    intro hfr hacc v hv
    rw [compLoop_cons] at hv
    have hu : ConnectedIn g r u := hfr u (by simp)
    refine ih ?_ ?_ v hv
    · intro w hw
      rcases List.mem_append.mp hw with hw | hw
      · exact hfr w (List.mem_cons_of_mem u hw)
      · have : w ∈ neighborsAll g u := by
          have := (List.mem_filter.mp hw).2
          simpa using this
        exact Relation.ReflTransGen.tail hu this
    · intro w hw
      rcases List.mem_append.mp hw with hw | hw
      · exact hacc w hw
      · simp at hw; rw [hw]; exact hu

lemma compLoop_sep {α : Type} (g : Graph α) :
    ∀ frontier rem acc,
      (∀ a ∈ acc, ∀ w ∈ neighborsAll g a, w ∉ rem) →
      ∀ a ∈ (compLoop g frontier rem acc).1, ∀ w ∈ neighborsAll g a,
        w ∉ (compLoop g frontier rem acc).2 := by
  intro frontier rem acc
  induction frontier, rem, acc using compLoop.induct g with
  | case1 rem acc =>
    intro hsep a ha w hw
    rw [compLoop_nil] at ha ⊢
    exact hsep a ha w hw
  | case2 rem acc u fr ih =>
    intro hsep a ha w hw
    rw [compLoop_cons] at ha ⊢
    refine ih ?_ a ha w hw
    intro b hb x hx
    rcases List.mem_append.mp hb with hb | hb
    · intro hmem
      exact hsep b hb x hx (List.mem_of_mem_filter hmem)
    · simp at hb
      rw [hb] at hx
      intro hmem
      have := (List.mem_filter.mp hmem).2
      simp at this
      exact this hx

lemma compLoop_disjoint {α : Type} (g : Graph α) :
    ∀ frontier rem acc,
      (∀ x ∈ acc, x ∉ rem) → (∀ x ∈ frontier, x ∉ rem) →
      ∀ x ∈ (compLoop g frontier rem acc).1, x ∉ (compLoop g frontier rem acc).2 := by
  intro frontier rem acc
  induction frontier, rem, acc using compLoop.induct g with
  | case1 rem acc =>
    intro hacc _ x hx
    rw [compLoop_nil] at hx ⊢
    exact hacc x hx
  | case2 rem acc u fr ih =>
    intro hacc hfr x hx
    rw [compLoop_cons] at hx ⊢
    refine ih ?_ ?_ x hx
    · intro y hy
      rcases List.mem_append.mp hy with hy | hy
      · intro hmem
        exact hacc y hy (List.mem_of_mem_filter hmem)
      · simp at hy
        rw [hy]
        intro hmem
        exact hfr u (by simp) (List.mem_of_mem_filter hmem)
    · intro y hy
      rcases List.mem_append.mp hy with hy | hy
      · intro hmem
        exact hfr y (List.mem_cons_of_mem u hy) (List.mem_of_mem_filter hmem)
      · intro hmem
        have h1 := (List.mem_filter.mp hy).2
        have h2 := (List.mem_filter.mp hmem).2
        simp at h1 h2
        exact h2 h1

lemma compLoop_root {α : Type} (g : Graph α) {r : Nat} {rem : List Nat} (hr : r ∉ rem) :
    r ∈ (compLoop g [r] rem []).1 := by
  have hco := (compLoop_conserv g [r] rem [] r).mpr (by simp)
  rcases hco with h | h
  · exact h
  · exact absurd ((compLoop_rem_sublist g [r] rem []).mem h) hr

lemma compLoop_comp_subset {α : Type} (g : Graph α) {r : Nat} {rem : List Nat} :
    ∀ x ∈ (compLoop g [r] rem []).1, x = r ∨ x ∈ rem := by
  intro x hx
  have := (compLoop_conserv g [r] rem [] x).mp (Or.inl hx)
  simpa using this

lemma compLoop_closed {α : Type} (g : Graph α) {r : Nat} {rem : List Nat} :
    ∀ x ∈ (compLoop g [r] rem []).1, ∀ w ∈ neighborsAll g x,
      (w = r ∨ w ∈ rem) → w ∈ (compLoop g [r] rem []).1 := by
  intro x hx w hw hwS
  have hnotrem : w ∉ (compLoop g [r] rem []).2 :=
    compLoop_sep g [r] rem [] (by simp) x hx w hw
  have hco := (compLoop_conserv g [r] rem [] w).mpr (Or.inr (by simpa using hwS))
  tauto

lemma compLoop_complete {α : Type} (g : Graph α) {r : Nat} {rem : List Nat} (hr : r ∉ rem)
    (hclosed : ∀ x, (x = r ∨ x ∈ rem) → ∀ y ∈ neighborsAll g x, (y = r ∨ y ∈ rem)) :
    ∀ y, ConnectedIn g r y → y ∈ (compLoop g [r] rem []).1 := by
  intro y hy
  induction hy with
  | refl => exact compLoop_root g hr
  | tail hmid hadj ih =>
    rename_i b c
    refine compLoop_closed g b ih c hadj ?_
    exact hclosed b (compLoop_comp_subset g b ih) c hadj

lemma compLoop_class {α : Type} (g : Graph α) {r : Nat} {rem : List Nat} (hr : r ∉ rem)
    (hclosed : ∀ x, (x = r ∨ x ∈ rem) → ∀ y ∈ neighborsAll g x, (y = r ∨ y ∈ rem)) :
    ∀ y, y ∈ (compLoop g [r] rem []).1 ↔ ConnectedIn g r y := by
  intro y
  constructor
  · intro hy
    exact compLoop_sound g r [r] rem []
      (by intro v hv; simp at hv; subst hv; exact Relation.ReflTransGen.refl)
      (by simp) y hy
  · exact compLoop_complete g hr hclosed y

/-- Modelled from the library call `nx.connected_components` in `main`:
walk the node list in order; each unvisited node seeds a breadth-first
traversal producing its component; components are emitted in
first-discovery order. -/
def compsLoop {α : Type} (g : Graph α) (rem : List Nat) : List (List Nat) :=
  match rem with
  | [] => []
  | u :: rest =>
    (compLoop g [u] rest []).1 :: compsLoop g (compLoop g [u] rest []).2
termination_by rem.length
decreasing_by
  have := compLoop_rem_sublen g [u] fr []
  simp only [List.length_cons]
  omega

lemma compsLoop_nil {α : Type} (g : Graph α) : compsLoop g [] = [] := by
  rw [compsLoop.eq_def]

lemma compsLoop_cons {α : Type} (g : Graph α) (u : Nat) (rest : List Nat) :
    compsLoop g (u :: rest) =
      (compLoop g [u] rest []).1 :: compsLoop g (compLoop g [u] rest []).2 := by
  rw [compsLoop.eq_def]

/-- The list of connected components of the graph, over all edges
regardless of mode, as computed by `nx.connected_components(G)` at the
call sites in `main`. -/
def connected_components {α : Type} (g : Graph α) : List (List Nat) :=
  compsLoop g (nodes g)

lemma compLoop_rem_closed {α : Type} (g : Graph α) {u : Nat} {rest : List Nat}
    (hu : u ∉ rest) (hcl : closedUnder g (u :: rest)) :
    closedUnder g (compLoop g [u] rest []).2 := by
  intro x hx y hy
  have hxrest : x ∈ rest := (compLoop_rem_sublist g [u] rest []).mem hx
  have hyrem : y ∈ u :: rest := hcl x (List.mem_cons_of_mem u hxrest) y hy
  by_contra hyn
  have hy1 : y ∈ (compLoop g [u] rest []).1 := by
    have hco := (compLoop_conserv g [u] rest [] y).mpr (by simpa using hyrem)
    tauto
  have hx1 : x ∈ (compLoop g [u] rest []).1 :=
    compLoop_closed g y hy1 x (adjAll_symm g hy) (Or.inr hxrest)
  exact compLoop_disjoint g [u] rest [] (by simp)
    (by intro z hz; simp at hz; rw [hz]; exact hu) x hx1 hx

lemma compsLoop_classes {α : Type} (g : Graph α) :
    ∀ rem : List Nat, rem.Nodup → closedUnder g rem →
      ∀ c ∈ compsLoop g rem, ∃ r ∈ rem, ∀ y, y ∈ c ↔ ConnectedIn g r y := by
  intro rem
  induction rem using compsLoop.induct g with
  | case1 =>
    intro _ _ c hc
    rw [compsLoop_nil] at hc
    simp at hc
  | case2 u rest ih =>
    intro hnd hcl c hc
    rw [compsLoop_cons] at hc
    have hu : u ∉ rest := (List.nodup_cons.mp hnd).1
    have hclosed : ∀ x, (x = u ∨ x ∈ rest) → ∀ y ∈ neighborsAll g x,
        (y = u ∨ y ∈ rest) := by
      intro x hx y hy
      have hxS : x ∈ u :: rest := by simpa using hx
      have := hcl x hxS y hy
      simpa using this
    rcases List.mem_cons.mp hc with hc | hc
    · refine ⟨u, by simp, ?_⟩
      rw [hc]
      exact compLoop_class g hu hclosed
    · have hsub := compLoop_rem_sublist g [u] rest []
      have hrestnd : rest.Nodup := (List.nodup_cons.mp hnd).2
      have hnd2 : ((compLoop g [u] rest []).2).Nodup := hsub.nodup hrestnd
      have hcl2 : closedUnder g (compLoop g [u] rest []).2 :=
        compLoop_rem_closed g hu hcl
      rcases ih hnd2 hcl2 c hc with ⟨r, hr, hchar⟩
      exact ⟨r, List.mem_cons_of_mem u (hsub.mem hr), hchar⟩

/-- One fold step of Python's `max(..., key=len)`: keep the current
best unless the next component is strictly longer (so on ties the
earlier component wins, as Python's `max` does). -/
def pickLonger (best c : List Nat) : List Nat :=
  if best.length < c.length then c else best

/-- `max(components, key=len)` from `main`: the first component of
maximal length (`[]` on an empty list, which cannot occur for a
nonempty node set). -/
def max_cc : List (List Nat) → List Nat
  | [] => []
  | c :: cs => cs.foldl pickLonger c

/-- The node list offered by the Start/End selectors in `main`
(`app.py` lines 121–139, `app-2.py` lines 100–107):
`nodes = list(max(nx.connected_components(G), key=len))`. -/
def candidate_nodes {α : Type} (g : Graph α) : List Nat :=
  max_cc (connected_components g)

lemma foldl_pickLonger_mem (c : List Nat) (cs : List (List Nat)) :
    cs.foldl pickLonger c ∈ c :: cs := by
  induction cs generalizing c with
  | nil => simp
  | cons a l ih =>
    simp only [List.foldl_cons]
    by_cases hl : c.length < a.length
    · have hp : pickLonger c a = a := by rw [pickLonger, if_pos hl]
      rw [hp]
      rcases List.mem_cons.mp (ih a) with h | h
      · simp [h]
      · simp [List.mem_cons_of_mem, h]
    · have hp : pickLonger c a = c := by rw [pickLonger, if_neg hl]
      rw [hp]
      rcases List.mem_cons.mp (ih c) with h | h
      · simp [h]
      · simp [List.mem_cons_of_mem, h]

lemma foldl_pickLonger_ge (c : List Nat) (cs : List (List Nat)) :
    ∀ x ∈ c :: cs, x.length ≤ (cs.foldl pickLonger c).length := by
  induction cs generalizing c with
  | nil => intro x hx; simp at hx; simp [hx]
  | cons a l ih =>
    intro x hx
    simp only [List.foldl_cons]
    have hstep : ∀ y, y = c ∨ y = a → y.length ≤ (pickLonger c a).length := by
      intro y hy
      rw [pickLonger]
      rcases hy with hy | hy <;> rw [hy] <;> split <;> omega
    rcases List.mem_cons.mp hx with hx | hx
    · exact (hstep x (Or.inl hx)).trans (ih (pickLonger c a) _ (by simp))
    · rcases List.mem_cons.mp hx with hx | hx
      · exact (hstep x (Or.inr hx)).trans (ih (pickLonger c a) _ (by simp))
      · exact ih (pickLonger c a) x (List.mem_cons_of_mem _ hx)

lemma max_cc_mem {cs : List (List Nat)} (h : cs ≠ []) : max_cc cs ∈ cs := by
  match cs with
  | [] => simp at h
  | c :: cs => exact foldl_pickLonger_mem c cs

lemma max_cc_maximal {cs : List (List Nat)} : ∀ c ∈ cs, c.length ≤ (max_cc cs).length := by
  match cs with
  | [] => simp
  | c :: cs => exact foldl_pickLonger_ge c cs

lemma closedUnder_nodes {α : Type} (g : Graph α)
    (hwf : ∀ e ∈ g.edges, e.u < numNodes g ∧ e.v < numNodes g) :
    closedUnder g (nodes g) := by
  intro x _ y hy
  rcases mem_neighborsAll.mp hy with ⟨e, he, hor⟩
  have hb := hwf e he
  rw [nodes]
  rcases hor with ⟨_, hv⟩ | ⟨_, hu⟩
  · exact List.mem_range.mpr (hv ▸ hb.2)
  · exact List.mem_range.mpr (hu ▸ hb.1)

/-- Claim C10: in both entry points, the source and target nodes
offered for route queries are drawn exclusively from the largest
connected component of the generated graph, computed over all edges
regardless of mode: the offered list is one of the connected
components, no component is longer, and it is exactly the connectivity
class of one of the graph's nodes — so a node outside that largest
component is never passed to `shortest_route` through the node
selectors. -/
theorem selectors_largest_component {α : Type} [LinearOrderedField α] (g : Graph α)
    (hwf : ∀ e ∈ g.edges, e.u < numNodes g ∧ e.v < numNodes g)
    (hne : connected_components g ≠ []) :
    candidate_nodes g ∈ connected_components g ∧
    (∀ c ∈ connected_components g, c.length ≤ (candidate_nodes g).length) ∧
    (∃ r ∈ nodes g, ∀ y, y ∈ candidate_nodes g ↔ ConnectedIn g r y) := by
  have hmem : candidate_nodes g ∈ connected_components g := max_cc_mem hne
  refine ⟨hmem, max_cc_maximal, ?_⟩
  have hclasses := compsLoop_classes g (nodes g) (List.nodup_range _)
    (closedUnder_nodes g hwf)
  exact hclasses _ hmem

/-- A three-node graph with one edge: components are `[0,1]` and `[2]`,
so the selectors offer exactly `[0,1]`. -/
def threeNodeG : Graph ℚ :=
  { points := [(0, 0), (1, 0), (2, 0)], stops := [],
    edges := [⟨0, 1, 1, [Mode.walk, Mode.car], false, 1⟩] }

theorem selectors_largest_component_witness :
    ((∀ e ∈ threeNodeG.edges, e.u < numNodes threeNodeG ∧ e.v < numNodes threeNodeG) ∧
      connected_components threeNodeG ≠ []) ∧
    (candidate_nodes threeNodeG ∈ connected_components threeNodeG ∧
      (∀ c ∈ connected_components threeNodeG, c.length ≤ (candidate_nodes threeNodeG).length) ∧
      (∃ r ∈ nodes threeNodeG, ∀ y, y ∈ candidate_nodes threeNodeG ↔
        ConnectedIn threeNodeG r y)) := by
  have hwf : ∀ e ∈ threeNodeG.edges, e.u < numNodes threeNodeG ∧ e.v < numNodes threeNodeG := by
    decide
  have hne : connected_components threeNodeG ≠ [] := by
    have h : nodes threeNodeG = 0 :: [1, 2] := rfl
    rw [connected_components, h, compsLoop_cons]
    exact List.cons_ne_nil _ _
  exact ⟨⟨hwf, hne⟩, selectors_largest_component threeNodeG hwf hne⟩

/-- Degree of a node: number of incident edges (used as the congestion
correlate). -/
def degree {α : Type} (g : Graph α) (n : Nat) : Nat :=
  (g.edges.filter fun e => decide (e.u = n) || decide (e.v = n)).length

/-- Modelled from the spec: the per-edge congestion multiplier of the
missing engine module's Traffic Simulator — deterministic per edge,
drawn from the bounded range `[1, 5/2]`, increasing in the local
endpoint degree (the exact formula is an open question of the spec;
the binding contract is determinism, the bounded range, and the
degree correlation). -/
def congestion_of {α : Type} [LinearOrderedField α] (g : Graph α) (e : Edge α) : α :=
  1 + 3 * ((min (degree g e.u + degree g e.v) 20 : Nat) : α) / 40

/-- Per-edge action of the Traffic Simulator: car-capable edges get
their multiplier set (congested under rush hour, reset to `1`
otherwise); edges without car capability are untouched. -/
def simEdge {α : Type} [LinearOrderedField α] (g : Graph α) (rush : Bool) (e : Edge α) :
    Edge α :=
  if Mode.car ∈ e.modes then
    { e with congestion_multiplier := if rush then congestion_of g e else 1 }
  else e

/-- Modelled from the spec: `simulate_traffic` of the missing engine
module — applies `simEdge` to every edge of the graph. -/
def simulate_traffic {α : Type} [LinearOrderedField α] (g : Graph α) (rush : Bool) :
    Graph α :=
  { g with edges := g.edges.map (simEdge g rush) }

lemma one_le_congestion_of {α : Type} [LinearOrderedField α] (g : Graph α) (e : Edge α) :
    1 ≤ congestion_of g e := by
  rw [congestion_of]
  have h0 : (0 : α) ≤ ((min (degree g e.u + degree g e.v) 20 : Nat) : α) :=
    Nat.cast_nonneg _
  have : (0 : α) ≤ 3 * ((min (degree g e.u + degree g e.v) 20 : Nat) : α) / 40 := by
    positivity
  linarith

lemma congestion_of_le {α : Type} [LinearOrderedField α] (g : Graph α) (e : Edge α) :
    congestion_of g e ≤ 5 / 2 := by
  rw [congestion_of]
  have h20 : ((min (degree g e.u + degree g e.v) 20 : Nat) : α) ≤ (20 : α) := by
    have := min_le_right (degree g e.u + degree g e.v) 20
    exact_mod_cast Nat.cast_le.mpr this
  linarith

/-- Claim C8: for every car-capable edge the car-mode cost after the
Traffic Simulator with `rush_hour = true` is `≥` its cost after
`rush_hour = false`; with `rush_hour = false` every congestion
multiplier is reset to `1` (given the generation invariant that
non-car edges start at the default multiplier `1`, since the simulator
never touches them); and edges without car capability are left
unchanged by the simulator in both cases. -/
theorem rush_hour_monotone {α : Type} [LinearOrderedField α] (g : Graph α) :
    (∀ e : Edge α, Mode.car ∈ e.modes → 0 ≤ e.base_distance →
      adjusted_weight (simEdge g false e) Mode.car ≤
        adjusted_weight (simEdge g true e) Mode.car) ∧
    ((∀ e ∈ g.edges, Mode.car ∉ e.modes → e.congestion_multiplier = 1) →
      ∀ e2 ∈ (simulate_traffic g false).edges, e2.congestion_multiplier = 1) ∧
    (∀ (r : Bool) (e : Edge α), Mode.car ∉ e.modes → simEdge g r e = e) := by
  refine ⟨?_, ?_, ?_⟩
  · intro e hcar hd
    rw [simEdge, if_pos hcar, simEdge, if_pos hcar, adjusted_weight, adjusted_weight]
    simp only [if_pos rfl]
    have hspeed : (0 : α) ≤ e.base_distance / SPEEDS Mode.car := by
      rw [SPEEDS]
      positivity
    exact mul_le_mul_of_nonneg_left (one_le_congestion_of g e) hspeed
  · intro hinv e2 he2
    rw [simulate_traffic] at he2
    simp only [List.mem_map] at he2
    rcases he2 with ⟨e, he, rfl⟩
    rw [simEdge]
    by_cases hcar : Mode.car ∈ e.modes
    · rw [if_pos hcar]
      simp
    · rw [if_neg hcar]
      exact hinv e he hcar
  · intro r e hcar
    rw [simEdge, if_neg hcar]

/-- A car-capable edge in a one-edge graph, used to instantiate the
rush-hour monotonicity. -/
def carEdgeG : Graph ℚ :=
  { points := [(0, 0), (1, 0)], stops := [],
    edges := [⟨0, 1, 1, [Mode.walk, Mode.car], false, 1⟩] }

theorem rush_hour_monotone_witness :
    (Mode.car ∈ (⟨0, 1, 1, [Mode.walk, Mode.car], false, 1⟩ : Edge ℚ).modes ∧
      (0 : ℚ) ≤ (⟨0, 1, 1, [Mode.walk, Mode.car], false, 1⟩ : Edge ℚ).base_distance) ∧
    adjusted_weight (simEdge carEdgeG false ⟨0, 1, 1, [Mode.walk, Mode.car], false, 1⟩)
        Mode.car ≤
      adjusted_weight (simEdge carEdgeG true ⟨0, 1, 1, [Mode.walk, Mode.car], false, 1⟩)
        Mode.car :=
  ⟨⟨by decide, by decide⟩,
    (rush_hour_monotone carEdgeG).1 ⟨0, 1, 1, [Mode.walk, Mode.car], false, 1⟩
      (by decide) (by decide)⟩

/-- Squared Euclidean norm of a planar point. -/
def nsq (p : ℝ × ℝ) : ℝ := p.1 ^ 2 + p.2 ^ 2

/-- A point strictly inside the open unit disk (the Poincaré-disk
invariant of §3). -/
def inDisk (p : ℝ × ℝ) : Prop := nsq p < 1

/-- Inverse hyperbolic cosine, `np.arccosh`:
`arcosh x = log (x + sqrt (x² - 1))`. -/
noncomputable def arcosh (x : ℝ) : ℝ := Real.log (x + Real.sqrt (x ^ 2 - 1))

/-- Modelled from the spec: `hyperbolic_distance` of the missing engine
module — the Poincaré-disk geodesic distance
`arccosh (1 + 2‖a-b‖² / ((1-‖a‖²)(1-‖b‖²)))` (§4.1).  The float-level
clamping of §4.1 is a numerical-robustness measure with no effect on
the real-valued mathematics for points strictly inside the disk. -/
noncomputable def hyperbolic_distance (a b : ℝ × ℝ) : ℝ :=
  arcosh (1 + 2 * nsq (a.1 - b.1, a.2 - b.2) / ((1 - nsq a) * (1 - nsq b)))

lemma arcosh_one : arcosh 1 = 0 := by
  rw [arcosh]
  norm_num

lemma hyperbolic_distance_self (a : ℝ × ℝ) : hyperbolic_distance a a = 0 := by
  rw [hyperbolic_distance]
  have h : nsq (a.1 - a.1, a.2 - a.2) = 0 := by rw [nsq]; ring
  rw [h]
  norm_num
  exact arcosh_one

lemma hyperbolic_distance_symm (a b : ℝ × ℝ) :
    hyperbolic_distance a b = hyperbolic_distance b a := by
  rw [hyperbolic_distance, hyperbolic_distance]
  congr 1
  simp only [nsq]
  ring

lemma arcosh_two_sq_arsinh {t : ℝ} (ht : 0 ≤ t) :
    arcosh (1 + 2 * t ^ 2) = 2 * Real.arsinh t := by
  rw [arcosh]
  have h1 : (1 + 2 * t ^ 2) ^ 2 - 1 = (2 * t * Real.sqrt (1 + t ^ 2)) ^ 2 := by
    rw [mul_pow, mul_pow, Real.sq_sqrt (by positivity)]
    ring
  rw [h1, Real.sqrt_sq (by positivity)]
  have h2 : 1 + 2 * t ^ 2 + 2 * t * Real.sqrt (1 + t ^ 2) =
      (t + Real.sqrt (1 + t ^ 2)) ^ 2 := by
    rw [add_sq, Real.sq_sqrt (by positivity)]
    ring
  rw [h2, Real.log_pow]
  unfold Real.arsinh
  push_cast
  ring

/-- The planar point as a complex number. -/
def toC (p : ℝ × ℝ) : ℂ := ⟨p.1, p.2⟩

/-- The Cayley transform, mapping the open unit disk onto the upper
half-plane. -/
noncomputable def cayley (z : ℂ) : ℂ := Complex.I * (1 + z) / (1 - z)

lemma normSq_toC (p : ℝ × ℝ) : Complex.normSq (toC p) = nsq p := by
  rw [toC, Complex.normSq_mk, nsq]
  ring

lemma normSq_toC_sub (a b : ℝ × ℝ) :
    Complex.normSq (toC a - toC b) = nsq (a.1 - b.1, a.2 - b.2) := by
  have h : toC a - toC b = toC (a.1 - b.1, a.2 - b.2) := by
    rw [toC, toC, toC]
    apply Complex.ext <;> simp
  rw [h, normSq_toC]

lemma one_sub_toC_ne {p : ℝ × ℝ} (hp : inDisk p) : (1 : ℂ) - toC p ≠ 0 := by
  intro h
  have h1 : toC p = 1 := by
    have := sub_eq_zero.mp h
    exact this.symm
  have h2 : Complex.normSq (toC p) = 1 := by rw [h1]; simp
  rw [normSq_toC] at h2
  rw [inDisk] at hp
  rw [h2] at hp
  exact lt_irrefl 1 hp

lemma normSq_one_sub_toC_ne {p : ℝ × ℝ} (hp : inDisk p) :
    Complex.normSq (1 - toC p) ≠ 0 :=
  fun h => one_sub_toC_ne hp (Complex.normSq_eq_zero.mp h)

lemma cayley_im {p : ℝ × ℝ} (hp : inDisk p) :
    (cayley (toC p)).im = (1 - nsq p) / Complex.normSq (1 - toC p) := by
  have hne := normSq_one_sub_toC_ne hp
  rw [cayley, Complex.div_im]
  simp only [Complex.mul_re, Complex.mul_im, Complex.I_re, Complex.I_im,
    Complex.add_re, Complex.add_im, Complex.one_re, Complex.one_im,
    Complex.sub_re, Complex.sub_im, toC, nsq]
  rw [Complex.normSq_mk] at hne ⊢
  simp only [toC] at hne ⊢
  field_simp
  ring

lemma cayley_im_pos {p : ℝ × ℝ} (hp : inDisk p) : 0 < (cayley (toC p)).im := by
  rw [cayley_im hp]
  apply div_pos
  · rw [inDisk] at hp; linarith
  · exact (Complex.normSq_pos).mpr (one_sub_toC_ne hp)

/-- A disk point viewed in the upper half-plane through the Cayley
transform. -/
noncomputable def toH (p : ℝ × ℝ) (hp : inDisk p) : UpperHalfPlane :=
  ⟨cayley (toC p), cayley_im_pos hp⟩

lemma cayley_sub {z w : ℂ} (hz : (1 : ℂ) - z ≠ 0) (hw : (1 : ℂ) - w ≠ 0) :
    cayley z - cayley w = 2 * Complex.I * (z - w) / ((1 - z) * (1 - w)) := by
  rw [cayley, cayley]
  field_simp
  ring

lemma normSq_cayley_sub {z w : ℂ} (hz : (1 : ℂ) - z ≠ 0) (hw : (1 : ℂ) - w ≠ 0) :
    Complex.normSq (cayley z - cayley w) =
      4 * Complex.normSq (z - w) / (Complex.normSq (1 - z) * Complex.normSq (1 - w)) := by
  rw [cayley_sub hz hw]
  rw [map_div₀, map_mul, map_mul, map_mul]
  simp [Complex.normSq_I]
  ring

lemma dist_ratio {a b : ℝ × ℝ} (ha : inDisk a) (hb : inDisk b) :
    Real.sqrt (nsq (a.1 - b.1, a.2 - b.2) / ((1 - nsq a) * (1 - nsq b))) =
      dist (cayley (toC a)) (cayley (toC b)) /
        (2 * Real.sqrt ((cayley (toC a)).im * (cayley (toC b)).im)) := by
  have hA : 0 < 1 - nsq a := by rw [inDisk] at ha; linarith
  have hB : 0 < 1 - nsq b := by rw [inDisk] at hb; linarith
  have himA := cayley_im_pos ha
  have himB := cayley_im_pos hb
  have hrhs : 0 ≤ dist (cayley (toC a)) (cayley (toC b)) /
      (2 * Real.sqrt ((cayley (toC a)).im * (cayley (toC b)).im)) :=
    div_nonneg dist_nonneg (by positivity)
  have hsq : nsq (a.1 - b.1, a.2 - b.2) / ((1 - nsq a) * (1 - nsq b)) =
      (dist (cayley (toC a)) (cayley (toC b)) /
        (2 * Real.sqrt ((cayley (toC a)).im * (cayley (toC b)).im))) ^ 2 := by
    rw [div_pow, Complex.dist_eq, Complex.sq_abs, mul_pow,
      Real.sq_sqrt (by positivity : (0:ℝ) ≤ (cayley (toC a)).im * (cayley (toC b)).im),
      normSq_cayley_sub (one_sub_toC_ne ha) (one_sub_toC_ne hb),
      cayley_im ha, cayley_im hb, normSq_toC_sub]
    have hNA := normSq_one_sub_toC_ne ha
    have hNB := normSq_one_sub_toC_ne hb
    field_simp
    ring
  rw [hsq, Real.sqrt_sq hrhs]

lemma hyperbolic_distance_eq_dist {a b : ℝ × ℝ} (ha : inDisk a) (hb : inDisk b) :
    hyperbolic_distance a b = dist (toH a ha) (toH b hb) := by
  have hA : 0 < 1 - nsq a := by rw [inDisk] at ha; linarith
  have hB : 0 < 1 - nsq b := by rw [inDisk] at hb; linarith
  have hQ : 0 ≤ nsq (a.1 - b.1, a.2 - b.2) / ((1 - nsq a) * (1 - nsq b)) := by
    apply div_nonneg
    · rw [nsq]; positivity
    · positivity
  rw [UpperHalfPlane.dist_eq, hyperbolic_distance]
  have harg : 1 + 2 * nsq (a.1 - b.1, a.2 - b.2) / ((1 - nsq a) * (1 - nsq b)) =
      1 + 2 * Real.sqrt (nsq (a.1 - b.1, a.2 - b.2) / ((1 - nsq a) * (1 - nsq b))) ^ 2 := by
    rw [Real.sq_sqrt hQ]; ring
  rw [harg, arcosh_two_sq_arsinh (Real.sqrt_nonneg _)]
  congr 1
  congr 1
  exact dist_ratio ha hb

lemma cayley_inj {z w : ℂ} (hz : (1 : ℂ) - z ≠ 0) (hw : (1 : ℂ) - w ≠ 0)
    (h : cayley z = cayley w) : z = w := by
  rw [cayley, cayley, div_eq_div_iff hz hw] at h
  have h3 : Complex.I * (2 * z - 2 * w) = 0 := by linear_combination h
  rcases mul_eq_zero.mp h3 with h4 | h4
  · exact absurd h4 Complex.I_ne_zero
  · have h5 : (2 : ℂ) * (z - w) = 0 := by linear_combination h4
    rcases mul_eq_zero.mp h5 with h6 | h6
    · exact absurd h6 two_ne_zero
    · exact sub_eq_zero.mp h6

lemma toC_inj {a b : ℝ × ℝ} (h : toC a = toC b) : a = b := by
  rw [toC, toC] at h
  have h1 := congrArg Complex.re h
  have h2 := congrArg Complex.im h
  simp at h1 h2
  cases a
  cases b
  simp at h1 h2 ⊢
  exact ⟨h1, h2⟩

/-- Claim C6: for all points strictly inside the unit disk the
hyperbolic distance is symmetric and non-negative, vanishes on the
diagonal and only there, and satisfies the triangle inequality (over
the reals, where the floating-point tolerance of the spec is
exact). -/
theorem hyperbolic_metric_contract (a b c : ℝ × ℝ) (ha : inDisk a) (hb : inDisk b)
    (hc : inDisk c) :
    hyperbolic_distance a b = hyperbolic_distance b a ∧
    0 ≤ hyperbolic_distance a b ∧
    hyperbolic_distance a a = 0 ∧
    (hyperbolic_distance a b = 0 ↔ a = b) ∧
    hyperbolic_distance a c ≤ hyperbolic_distance a b + hyperbolic_distance b c := by
  refine ⟨hyperbolic_distance_symm a b, ?_, hyperbolic_distance_self a, ?_, ?_⟩
  · rw [hyperbolic_distance_eq_dist ha hb]
    exact dist_nonneg
  · constructor
    · intro h
      rw [hyperbolic_distance_eq_dist ha hb, dist_eq_zero] at h
      have h2 : cayley (toC a) = cayley (toC b) := congrArg UpperHalfPlane.coe h
      exact toC_inj (cayley_inj (one_sub_toC_ne ha) (one_sub_toC_ne hb) h2)
    · intro h
      rw [h]
      exact hyperbolic_distance_self b
  · rw [hyperbolic_distance_eq_dist ha hc, hyperbolic_distance_eq_dist ha hb,
      hyperbolic_distance_eq_dist hb hc]
    exact dist_triangle _ _ _

theorem hyperbolic_metric_contract_witness :
    inDisk ((0 : ℝ), (0 : ℝ)) ∧
    (hyperbolic_distance ((0 : ℝ), (0 : ℝ)) ((0 : ℝ), (0 : ℝ)) =
        hyperbolic_distance ((0 : ℝ), (0 : ℝ)) ((0 : ℝ), (0 : ℝ)) ∧
      0 ≤ hyperbolic_distance ((0 : ℝ), (0 : ℝ)) ((0 : ℝ), (0 : ℝ)) ∧
      hyperbolic_distance ((0 : ℝ), (0 : ℝ)) ((0 : ℝ), (0 : ℝ)) = 0 ∧
      (hyperbolic_distance ((0 : ℝ), (0 : ℝ)) ((0 : ℝ), (0 : ℝ)) = 0 ↔
        ((0 : ℝ), (0 : ℝ)) = ((0 : ℝ), (0 : ℝ))) ∧
      hyperbolic_distance ((0 : ℝ), (0 : ℝ)) ((0 : ℝ), (0 : ℝ)) ≤
        hyperbolic_distance ((0 : ℝ), (0 : ℝ)) ((0 : ℝ), (0 : ℝ)) +
          hyperbolic_distance ((0 : ℝ), (0 : ℝ)) ((0 : ℝ), (0 : ℝ))) := by
  have h : inDisk ((0 : ℝ), (0 : ℝ)) := by rw [inDisk, nsq]; norm_num
  exact ⟨h, hyperbolic_metric_contract _ _ _ h h h⟩

/-- All pairs `(i, j)` with `i < j < n`: the unordered pairs of
distinct node indices, enumerated once each. -/
def allPairs (n : Nat) : List (Nat × Nat) :=
  (List.range n).flatMap fun i =>
    ((List.range n).filter fun j => decide (i < j)).map fun j => (i, j)

lemma mem_allPairs {n i j : Nat} : (i, j) ∈ allPairs n ↔ i < j ∧ j < n := by
  rw [allPairs]
  simp only [List.mem_flatMap, List.mem_map, List.mem_filter, List.mem_range,
    decide_eq_true_eq]
  constructor
  · rintro ⟨a, ha, b, ⟨hbn, hab⟩, hba⟩
    obtain ⟨h1, h2⟩ := Prod.mk.injEq a b i j ▸ hba
    exact ⟨h1 ▸ h2 ▸ hab, h2 ▸ hbn⟩
  · rintro ⟨hij, hjn⟩
    exact ⟨i, lt_trans hij hjn, j, ⟨hjn, hij⟩, rfl⟩

/-- Modelled from the spec: `build_hyperbolic_road_network` of the
missing engine module, the Road Network Builder (§4.3).  For every
unordered pair of distinct points it computes the hyperbolic distance
and creates an edge exactly when `distance ≤ threshold`, with
`base_distance` the distance, the capability set from the Mode
Assigner, no public flag and default congestion multiplier `1`;
isolated nodes are retained. -/
noncomputable def build_hyperbolic_road_network (pts : List (ℝ × ℝ)) (θ : ℝ) : Graph ℝ :=
  { points := pts, stops := [],
    edges := (allPairs pts.length).filterMap fun ij =>
      if hyperbolic_distance (pts.getD ij.1 (0, 0)) (pts.getD ij.2 (0, 0)) ≤ θ then
        some ⟨ij.1, ij.2,
          hyperbolic_distance (pts.getD ij.1 (0, 0)) (pts.getD ij.2 (0, 0)),
          assign_modes (hyperbolic_distance (pts.getD ij.1 (0, 0)) (pts.getD ij.2 (0, 0))),
          false, 1⟩
      else none }

/-- Some edge joins the unordered pair `{i, j}` in `g`. -/
def hasEdge {α : Type} (g : Graph α) (i j : Nat) : Prop :=
  ∃ e ∈ g.edges, (e.u = i ∧ e.v = j) ∨ (e.u = j ∧ e.v = i)

lemma build_edges_spec (pts : List (ℝ × ℝ)) (θ : ℝ) :
    ∀ e ∈ (build_hyperbolic_road_network pts θ).edges,
      e.u < e.v ∧ e.v < pts.length ∧
      e.base_distance = hyperbolic_distance (pts.getD e.u (0, 0)) (pts.getD e.v (0, 0)) ∧
      e.base_distance ≤ θ ∧ e.modes = assign_modes e.base_distance ∧
      e.is_public_route = false ∧ e.congestion_multiplier = 1 := by
  intro e he
  rw [build_hyperbolic_road_network] at he
  simp only [List.mem_filterMap] at he
  rcases he with ⟨ij, hij, hfe⟩
  obtain ⟨i, j⟩ := ij
  rcases mem_allPairs.mp hij with ⟨h1, h2⟩
  by_cases hle : hyperbolic_distance (pts.getD i (0, 0)) (pts.getD j (0, 0)) ≤ θ
  · rw [if_pos hle] at hfe
    simp only [Option.some.injEq] at hfe
    rw [← hfe]
    exact ⟨h1, h2, rfl, hle, rfl, rfl, rfl⟩
  · rw [if_neg hle] at hfe
    simp at hfe

lemma build_hasEdge_of (pts : List (ℝ × ℝ)) (θ : ℝ) (i j : Nat) (hij : i ≠ j)
    (hi : i < pts.length) (hj : j < pts.length)
    (hd : hyperbolic_distance (pts.getD i (0, 0)) (pts.getD j (0, 0)) ≤ θ) :
    hasEdge (build_hyperbolic_road_network pts θ) i j := by
  rcases Nat.lt_or_ge i j with hlt | hge
  · refine ⟨⟨i, j, hyperbolic_distance (pts.getD i (0, 0)) (pts.getD j (0, 0)),
      assign_modes (hyperbolic_distance (pts.getD i (0, 0)) (pts.getD j (0, 0))),
      false, 1⟩, ?_, Or.inl ⟨rfl, rfl⟩⟩
    rw [build_hyperbolic_road_network]
    simp only [List.mem_filterMap]
    exact ⟨(i, j), mem_allPairs.mpr ⟨hlt, hj⟩, by rw [if_pos hd]⟩
  · have hlt : j < i := lt_of_le_of_ne hge (fun h => hij h.symm)
    have hd2 : hyperbolic_distance (pts.getD j (0, 0)) (pts.getD i (0, 0)) ≤ θ := by
      rw [hyperbolic_distance_symm]; exact hd
    refine ⟨⟨j, i, hyperbolic_distance (pts.getD j (0, 0)) (pts.getD i (0, 0)),
      assign_modes (hyperbolic_distance (pts.getD j (0, 0)) (pts.getD i (0, 0))),
      false, 1⟩, ?_, Or.inr ⟨rfl, rfl⟩⟩
    rw [build_hyperbolic_road_network]
    simp only [List.mem_filterMap]
    exact ⟨(j, i), mem_allPairs.mpr ⟨hlt, hi⟩, by rw [if_pos hd2]⟩

/-- Claim C7: the Road Network Builder creates an edge between an
unordered pair of distinct points iff their hyperbolic distance is at
most the threshold; every edge carries `base_distance` equal to that
distance, and hence every edge of a built graph satisfies
`base_distance ≤ distance_threshold`. -/
theorem builder_proximity (pts : List (ℝ × ℝ)) (θ : ℝ) :
    (∀ i j, hasEdge (build_hyperbolic_road_network pts θ) i j ↔
      (i ≠ j ∧ i < pts.length ∧ j < pts.length ∧
        hyperbolic_distance (pts.getD i (0, 0)) (pts.getD j (0, 0)) ≤ θ)) ∧
    (∀ e ∈ (build_hyperbolic_road_network pts θ).edges,
      e.base_distance = hyperbolic_distance (pts.getD e.u (0, 0)) (pts.getD e.v (0, 0)) ∧
      e.base_distance ≤ θ) := by
  constructor
  · intro i j
    constructor
    · rintro ⟨e, he, hor⟩
      rcases build_edges_spec pts θ e he with ⟨huv, hvn, hbase, hθ, _, _, _⟩
      rcases hor with ⟨hu, hv⟩ | ⟨hu, hv⟩
      · refine ⟨by rw [← hu, ← hv]; exact Nat.ne_of_lt huv, ?_, ?_, ?_⟩
        · rw [← hu]; exact lt_trans huv hvn
        · rw [← hv]; exact hvn
        · rw [← hu, ← hv, ← hbase]; exact hθ
      · refine ⟨by rw [← hu, ← hv]; exact (Nat.ne_of_lt huv).symm, ?_, ?_, ?_⟩
        · rw [← hv]; exact hvn
        · rw [← hu]; exact lt_trans huv hvn
        · rw [hyperbolic_distance_symm, ← hu, ← hv, ← hbase]; exact hθ
    · rintro ⟨hij, hi, hj, hd⟩
      exact build_hasEdge_of pts θ i j hij hi hj hd
  · intro e he
    rcases build_edges_spec pts θ e he with ⟨_, _, hbase, hθ, _, _, _⟩
    exact ⟨hbase, hθ⟩

theorem builder_proximity_witness :
    ((0 : Nat) ≠ 1 ∧ (0 : Nat) < ([((0 : ℝ), (0 : ℝ)), ((0 : ℝ), (0 : ℝ))]).length ∧
      (1 : Nat) < ([((0 : ℝ), (0 : ℝ)), ((0 : ℝ), (0 : ℝ))]).length ∧
      hyperbolic_distance (([((0 : ℝ), (0 : ℝ)), ((0 : ℝ), (0 : ℝ))]).getD 0 (0, 0))
        (([((0 : ℝ), (0 : ℝ)), ((0 : ℝ), (0 : ℝ))]).getD 1 (0, 0)) ≤ 1) ∧
    hasEdge (build_hyperbolic_road_network [((0 : ℝ), (0 : ℝ)), ((0 : ℝ), (0 : ℝ))] 1) 0 1 := by
  have hd : hyperbolic_distance (([((0 : ℝ), (0 : ℝ)), ((0 : ℝ), (0 : ℝ))]).getD 0 (0, 0))
      (([((0 : ℝ), (0 : ℝ)), ((0 : ℝ), (0 : ℝ))]).getD 1 (0, 0)) ≤ 1 := by
    have h0 : ([((0 : ℝ), (0 : ℝ)), ((0 : ℝ), (0 : ℝ))]).getD 0 (0, 0) = ((0 : ℝ), (0 : ℝ)) := rfl
    have h1 : ([((0 : ℝ), (0 : ℝ)), ((0 : ℝ), (0 : ℝ))]).getD 1 (0, 0) = ((0 : ℝ), (0 : ℝ)) := rfl
    rw [h0, h1, hyperbolic_distance_self]
    norm_num
  refine ⟨⟨by decide, by simp, by simp, hd⟩, ?_⟩
  exact ((builder_proximity [((0 : ℝ), (0 : ℝ)), ((0 : ℝ), (0 : ℝ))] 1).1 0 1).mpr
    ⟨by decide, by simp, by simp, hd⟩

/-- Linear congruential PRNG step: the explicit deterministic random
state threaded through generation (design note §9: a passed value, not
a process-wide generator), seeded once per run as `generate_network`
seeds `np.random` / `random` with `seed`.  31-bit arithmetic with
explicit wraparound. -/
def lcg_next (s : Nat) : Nat := (1103515245 * s + 12345) % 2 ^ 31

/-- A pseudo-random real in `[0, 1)` from an LCG state. -/
noncomputable def randUnit (s : Nat) : ℝ := (s : ℝ) / 2 ^ 31

/-- Inverse hyperbolic tangent, used by the sampler's radius
transform. -/
noncomputable def artanh (x : ℝ) : ℝ := Real.log ((1 + x) / (1 - x)) / 2

/-- Modelled from the spec: one sampled point (§4.2): draw
`θ ~ U(0, 2π)` and `u ~ U(0, 1)` from the PRNG and set the Euclidean
radius `ρ = tanh(artanh(0.95) · √u)`, the hyperbolic-area-uniform
transform with disk bound `0.95`.  Returns the point and the advanced
PRNG state. -/
noncomputable def sample_point (s : Nat) : (ℝ × ℝ) × Nat :=
  let s1 := lcg_next s
  let s2 := lcg_next s1
  let t := 2 * Real.pi * randUnit s1
  let u := randUnit s2
  let ρ := Real.tanh (artanh (95 / 100) * Real.sqrt u)
  ((ρ * Real.cos t, ρ * Real.sin t), s2)

/-- Modelled from the spec: `generate_random_intersections` of the
missing engine module, the Point Sampler — `n` points distributed
uniformly by hyperbolic area, threading the PRNG state. -/
noncomputable def generate_random_intersections : Nat → Nat → List (ℝ × ℝ) × Nat
  | 0, s => ([], s)
  | n + 1, s =>
    let pr := sample_point s
    let rest := generate_random_intersections n pr.2
    (pr.1 :: rest.1, rest.2)

/-- Mark an edge as part of a public-transport line: set the flag and
grant `public` capability; re-marking an already public edge is a
no-op on the capability set (§4.5 idempotence). -/
def mark_public_edge {α : Type} (e : Edge α) : Edge α :=
  { e with
    is_public_route := true,
    modes := if Mode.public ∈ e.modes then e.modes else e.modes ++ [Mode.public] }

/-- Consecutive pairs of a path. -/
def pathPairs (p : List Nat) : List (Nat × Nat) := p.zip p.tail

/-- Whether the unordered pair `{u, v}` is traversed by the path. -/
def onPath (u v : Nat) (p : List Nat) : Bool :=
  (pathPairs p).any fun q =>
    (decide (q.1 = u) && decide (q.2 = v)) || (decide (q.1 = v) && decide (q.2 = u))

/-- Mark every node of a line's path as a stop and every traversed
edge as a public route. -/
def mark_line {α : Type} (g : Graph α) (path : List Nat) : Graph α :=
  { g with
    stops := g.stops ++ path.filter (fun n => decide (n ∉ g.stops)),
    edges := g.edges.map fun e => if onPath e.u e.v path then mark_public_edge e else e }

/-- Modelled from the spec: one transit line (§4.5): pick two
deterministic-random anchor nodes, join them by the router's car-mode
minimum-cost path (reusing the Router's core algorithm), and mark the
path's nodes as stops and its edges as public. -/
def add_line {α : Type} [LinearOrderedField α] (g : Graph α) (s : Nat) : Graph α × Nat :=
  if numNodes g = 0 then (g, lcg_next (lcg_next s))
  else
    let a := lcg_next s % numNodes g
    let s1 := lcg_next s
    let b := lcg_next s1 % numNodes g
    let s2 := lcg_next s1
    match shortest_route g a b Mode.car with
    | Except.ok path => (mark_line g path, s2)
    | Except.error _ => (g, s2)

/-- Modelled from the spec: `add_public_transport_routes` of the
missing engine module, the Transit Overlay Builder — threads
`line_count` lines over the base graph, passing the PRNG state
along. -/
def add_public_transport_routes {α : Type} [LinearOrderedField α] :
    Graph α → Nat → Nat → Graph α × Nat
  | g, 0, s => (g, s)
  | g, n + 1, s =>
    let pr := add_line g s
    add_public_transport_routes pr.1 n pr.2

/-- The one-shot generation pipeline `generate_network` of `app.py`
(lines 56–65) and `main` of `app-2.py` (lines 77–84): seed the PRNG,
sample the intersections, build the proximity graph (the Mode Assigner
decorating each created edge), add the public-transport overlay, run
the traffic simulation, and return the graph with the sampled
points. -/
noncomputable def generate_network (num_intersections : Nat) (distance_threshold : ℝ)
    (rush_hour : Bool) (num_transport_lines : Nat) (seed : Nat) :
    Graph ℝ × List (ℝ × ℝ) :=
  let pr := generate_random_intersections num_intersections seed
  let g1 := build_hyperbolic_road_network pr.1 distance_threshold
  let pr2 := add_public_transport_routes g1 num_transport_lines pr.2
  let g3 := simulate_traffic pr2.1 rush_hour
  (g3, pr.1)

/-- Claim C2: the one-shot generation entry point runs the full
pipeline in the order point sampling → proximity-graph construction
(with mode assignment decorating each created edge) → transit-overlay
addition → traffic simulation, and returns the resulting graph
together with the sampled points. -/
theorem pipeline_order (n : Nat) (θ : ℝ) (rh : Bool) (lines seed : Nat) :
    (generate_network n θ rh lines seed =
      (simulate_traffic
          (add_public_transport_routes
            (build_hyperbolic_road_network (generate_random_intersections n seed).1 θ)
            lines (generate_random_intersections n seed).2).1
          rh,
        (generate_random_intersections n seed).1)) ∧
    (∀ (pts : List (ℝ × ℝ)) (θ2 : ℝ), ∀ e ∈ (build_hyperbolic_road_network pts θ2).edges,
      e.modes = assign_modes e.base_distance) := by
  refine ⟨rfl, ?_⟩
  intro pts θ2 e he
  exact (build_edges_spec pts θ2 e he).2.2.2.2.1

theorem pipeline_order_witness :
    ((⟨0, 1, hyperbolic_distance ((0 : ℝ), (0 : ℝ)) ((0 : ℝ), (0 : ℝ)),
        assign_modes (hyperbolic_distance ((0 : ℝ), (0 : ℝ)) ((0 : ℝ), (0 : ℝ))),
        false, 1⟩ : Edge ℝ) ∈
      (build_hyperbolic_road_network [((0 : ℝ), (0 : ℝ)), ((0 : ℝ), (0 : ℝ))] 1).edges) ∧
    (⟨0, 1, hyperbolic_distance ((0 : ℝ), (0 : ℝ)) ((0 : ℝ), (0 : ℝ)),
        assign_modes (hyperbolic_distance ((0 : ℝ), (0 : ℝ)) ((0 : ℝ), (0 : ℝ))),
        false, 1⟩ : Edge ℝ).modes =
      assign_modes (⟨0, 1, hyperbolic_distance ((0 : ℝ), (0 : ℝ)) ((0 : ℝ), (0 : ℝ)),
        assign_modes (hyperbolic_distance ((0 : ℝ), (0 : ℝ)) ((0 : ℝ), (0 : ℝ))),
        false, 1⟩ : Edge ℝ).base_distance := by
  have hd : hyperbolic_distance ((0 : ℝ), (0 : ℝ)) ((0 : ℝ), (0 : ℝ)) ≤ 1 := by
    rw [hyperbolic_distance_self]; norm_num
  have hmem : (⟨0, 1, hyperbolic_distance ((0 : ℝ), (0 : ℝ)) ((0 : ℝ), (0 : ℝ)),
      assign_modes (hyperbolic_distance ((0 : ℝ), (0 : ℝ)) ((0 : ℝ), (0 : ℝ))),
      false, 1⟩ : Edge ℝ) ∈
      (build_hyperbolic_road_network [((0 : ℝ), (0 : ℝ)), ((0 : ℝ), (0 : ℝ))] 1).edges := by
    rw [build_hyperbolic_road_network]
    simp only [List.mem_filterMap]
    refine ⟨(0, 1), mem_allPairs.mpr ⟨by decide, by simp⟩, ?_⟩
    rw [show ([((0 : ℝ), (0 : ℝ)), ((0 : ℝ), (0 : ℝ))].getD (0, 1).1 ((0 : ℝ), (0 : ℝ)))
        = ((0 : ℝ), (0 : ℝ)) from rfl,
      show ([((0 : ℝ), (0 : ℝ)), ((0 : ℝ), (0 : ℝ))].getD (0, 1).2 ((0 : ℝ), (0 : ℝ)))
        = ((0 : ℝ), (0 : ℝ)) from rfl,
      if_pos hd]
  exact ⟨hmem, (pipeline_order 2 1 false 1 0).2 _ 1 _ hmem⟩

/-- Claim C1: determinism — two generation runs with identical
`(seed, num_intersections, distance_threshold, rush_hour,
num_transport_lines)` produce identical node positions, identical edge
sets, and identical edge weights.  In this embedding the random state
is an explicit PRNG value seeded from `seed` and threaded through the
pipeline, exactly as `generate_network` seeds the process RNG once per
run, so the output is a pure function of the generation inputs. -/
theorem generation_deterministic (n n2 : Nat) (θ θ2 : ℝ) (rh rh2 : Bool)
    (l l2 s s2 : Nat)
    (h : n = n2 ∧ θ = θ2 ∧ rh = rh2 ∧ l = l2 ∧ s = s2) :
    (generate_network n θ rh l s).2 = (generate_network n2 θ2 rh2 l2 s2).2 ∧
    (generate_network n θ rh l s).1.edges = (generate_network n2 θ2 rh2 l2 s2).1.edges ∧
    ((generate_network n θ rh l s).1.edges.map fun e => e.base_distance) =
      ((generate_network n2 θ2 rh2 l2 s2).1.edges.map fun e => e.base_distance) ∧
    ((generate_network n θ rh l s).1.edges.map fun e => e.congestion_multiplier) =
      ((generate_network n2 θ2 rh2 l2 s2).1.edges.map fun e => e.congestion_multiplier) := by
  obtain ⟨h1, h2, h3, h4, h5⟩ := h
  subst h1; subst h2; subst h3; subst h4; subst h5
  exact ⟨rfl, rfl, rfl, rfl⟩

theorem generation_deterministic_witness :
    ((200 : Nat) = 200 ∧ (3 : ℝ) = 3 ∧ true = true ∧ (3 : Nat) = 3 ∧ (42 : Nat) = 42) ∧
    ((generate_network 200 3 true 3 42).2 = (generate_network 200 3 true 3 42).2 ∧
      (generate_network 200 3 true 3 42).1.edges = (generate_network 200 3 true 3 42).1.edges ∧
      ((generate_network 200 3 true 3 42).1.edges.map fun e => e.base_distance) =
        ((generate_network 200 3 true 3 42).1.edges.map fun e => e.base_distance) ∧
      ((generate_network 200 3 true 3 42).1.edges.map fun e => e.congestion_multiplier) =
        ((generate_network 200 3 true 3 42).1.edges.map fun e => e.congestion_multiplier)) :=
  ⟨⟨rfl, rfl, rfl, rfl, rfl⟩,
    generation_deterministic 200 200 3 3 true true 3 3 42 42 ⟨rfl, rfl, rfl, rfl, rfl⟩⟩

/-- Generation configuration (§6): the sidebar options.  The threshold
slider's decimal value is embedded as a rational. -/
structure Config where
  num_intersections : Nat
  distance_threshold : ℚ
  rush_hour : Bool
  num_transport_lines : Nat
  seed : Nat
deriving DecidableEq

/-- Generation-time error (§7): an out-of-range configuration
parameter, tagged with the offending option. -/
inductive GenError where
  | InvalidConfigurationError (param : String)
deriving DecidableEq

/-- Modelled from the spec: configuration validation against the
recognized ranges of §6 (`num_intersections` 50–500,
`distance_threshold` 1.0–5.0, `num_transport_lines` 1–10), reporting
the first out-of-range option. -/
def validate_config (c : Config) : Except GenError Unit :=
  if c.num_intersections < 50 ∨ 500 < c.num_intersections then
    Except.error (GenError.InvalidConfigurationError "num_intersections")
  else if c.distance_threshold < 1 ∨ 5 < c.distance_threshold then
    Except.error (GenError.InvalidConfigurationError "distance_threshold")
  else if c.num_transport_lines < 1 ∨ 10 < c.num_transport_lines then
    Except.error (GenError.InvalidConfigurationError "num_transport_lines")
  else Except.ok ()

/-- The fallible generation pipeline: validation, then the pure stage
chain of `generate_network`; an `Except` bind short-circuits on the
first error exactly as exception propagation does in the `try` block
of `main`. -/
noncomputable def generateE (c : Config) : Except GenError (Graph ℝ × List (ℝ × ℝ)) :=
  (validate_config c).bind fun _ =>
    Except.ok (generate_network c.num_intersections (c.distance_threshold : ℝ)
      c.rush_hour c.num_transport_lines c.seed)

/-- The generation step of `main` (`app.py` lines 107–117): on success
the session's stored network is replaced by the new result; on failure
the error is reported and the stored network is left untouched. -/
noncomputable def run_generation (prev : Option (Graph ℝ × List (ℝ × ℝ))) (c : Config) :
    Option (Graph ℝ × List (ℝ × ℝ)) × Option GenError :=
  match generateE c with
  | Except.ok net => (some net, none)
  | Except.error e => (prev, some e)

/-- Claim C3: if any stage of the generation pipeline fails, the whole
run aborts surfacing that first error and no partial graph is exposed:
the stored network state is either a complete pipeline result or
unchanged from before the run.  The first-error policy is exhibited by
the validation chain: an invalid `num_intersections` is the reported
error even when later parameters are out of range too. -/
theorem generation_atomic (prev : Option (Graph ℝ × List (ℝ × ℝ))) (c : Config) :
    (∀ e, generateE c = Except.error e → run_generation prev c = (prev, some e)) ∧
    (∀ net, generateE c = Except.ok net →
      run_generation prev c = (some net, none) ∧
      net = generate_network c.num_intersections (c.distance_threshold : ℝ)
        c.rush_hour c.num_transport_lines c.seed) ∧
    ((c.num_intersections < 50 ∨ 500 < c.num_intersections) →
      generateE c = Except.error (GenError.InvalidConfigurationError "num_intersections")) := by
  refine ⟨?_, ?_, ?_⟩
  · intro e he
    rw [run_generation, he]
  · intro net he
    refine ⟨by rw [run_generation, he], ?_⟩
    rw [generateE] at he
    cases hv : validate_config c with
    | ok u =>
      rw [hv, Except.bind] at he
      simp at he
      exact he.symm
    | error e2 =>
      rw [hv, Except.bind] at he
      simp at he
  · intro h
    rw [generateE, validate_config, if_pos h]
    rfl

/-- A configuration whose `num_intersections` and
`num_transport_lines` are both out of range: the surfaced error is the
first one. -/
def badConfig : Config := ⟨0, 10, false, 0, 42⟩

/-- An in-range configuration. -/
def goodConfig : Config := ⟨50, 3, true, 3, 42⟩

theorem generation_atomic_witness :
    ((badConfig.num_intersections < 50 ∨ 500 < badConfig.num_intersections) ∧
      run_generation none badConfig =
        (none, some (GenError.InvalidConfigurationError "num_intersections"))) ∧
    run_generation none goodConfig =
      (some (generate_network 50 ((3 : ℚ) : ℝ) true 3 42), none) := by
  have h : badConfig.num_intersections < 50 ∨ 500 < badConfig.num_intersections := by
    left; decide
  have he := (generation_atomic none badConfig).2.2 h
  have hok : generateE goodConfig = Except.ok (generate_network 50 ((3 : ℚ) : ℝ) true 3 42) := by
    rw [generateE, validate_config,
      if_neg (by rw [show goodConfig.num_intersections = 50 from rfl]; omega),
      if_neg (by rw [show goodConfig.distance_threshold = 3 from rfl]; norm_num),
      if_neg (by rw [show goodConfig.num_transport_lines = 3 from rfl]; omega)]
    rfl
  exact ⟨⟨h, (generation_atomic none badConfig).1 _ he⟩,
    ((generation_atomic none goodConfig).2.1 _ hok).1⟩
